import Mathlib

/-!
Shallow embedding of the Conway's Game of Life board core (`src/board.rs`).

Machine integers (`usize`) are modelled as `Nat`; `isize` offsets as `Int`;
`checked_add_signed` as an explicit check that the signed sum is nonnegative.
Code that can panic (`unwrap`, slice indexing with an unchecked index) is
modelled with `Option`: `none` is a panic.  Fallible constructors return
`Except BoardError Board`, one error constructor per `bail!`/`ensure!` site,
named after the error kinds of the design document.
-/

namespace ConwayLife

def ALIVE_CHAR : Char := 'x'

def DEAD_CHAR : Char := '-'

structure Coords where
  x : Nat
  y : Nat
deriving DecidableEq

inductive Direction where
  | N | NE | E | SE | S | SW | W | NW
deriving DecidableEq

def Direction.all : List Direction :=
  [.N, .NE, .E, .SE, .S, .SW, .W, .NW]

def Direction.offset : Direction → Int × Int
  | .SW => (-1, -1)
  | .S => (0, -1)
  | .SE => (1, -1)
  | .W => (-1, 0)
  | .E => (1, 0)
  | .NW => (-1, 1)
  | .N => (0, 1)
  | .NE => (1, 1)

inductive BoardError where
  | invalidDimensions
  | sizeMismatch
  | outOfBounds
  | invalidCharacter
  | raggedRows
deriving DecidableEq

structure Board where
  dims : Coords
  cells : List Bool
deriving DecidableEq

deriving instance DecidableEq for Except

/-- `Board::new`: rejects zero-area dimensions, then either checks the
supplied cell vector's length or fills with `false`. -/
def Board.new (dims : Coords) (cells : Option (List Bool)) : Except BoardError Board :=
  let numCells := dims.x * dims.y
  if numCells > 0 then
    match cells with
    | some cs =>
      if cs.length = numCells then .ok { dims := dims, cells := cs }
      else .error .sizeMismatch
    | none => .ok { dims := dims, cells := List.replicate numCells false }
  else .error .invalidDimensions

def Board.dim_y (b : Board) : Nat := b.dims.y

def Board.dim_x (b : Board) : Nat := b.dims.x

/-- `Board::index`: translate 2d coordinates to the flattened vec. -/
def Board.index (b : Board) (c : Coords) : Nat := c.y * b.dims.x + c.x

/-- `Board::alive`: `self.cells[self.index(coords)]`.  The source panics on an
out-of-range index; every use in the source is in range, and the model
returns `false` there. -/
def Board.alive (b : Board) (c : Coords) : Bool := b.cells.getD (b.index c) false

/-- `Board::set_alive`.  `List.set` leaves the list unchanged out of range,
where the source would panic; every use in the source is in range. -/
def Board.set_alive (b : Board) (c : Coords) (a : Bool) : Board :=
  { b with cells := b.cells.set (b.index c) a }

/-- The inner `for x in 0..ow { set_alive }` loop of `Board::add` and
`Board::next`: write `f x y` at `(x + icx, y + icy)` for all `x < ow`. -/
def Board.writeRow (init : Board) (ow icx icy y : Nat) (f : Nat → Nat → Bool) : Board :=
  (List.range ow).foldl (fun nb x =>
    Board.set_alive nb ⟨x + icx, y + icy⟩ (f x y)) init

/-- The nested `for y { for x { set_alive } }` loop shared by `Board::add`
and `Board::next`: write `f x y` at `(x + icx, y + icy)` for all
`x < ow`, `y < oh`, in that loop order. -/
def Board.writeCells (init : Board) (ow oh icx icy : Nat) (f : Nat → Nat → Bool) : Board :=
  (List.range oh).foldl (fun nb y =>
    Board.writeRow nb ow icx icy y f) init

/-- `Board::add`: clone of `self` with `board` written at `insert_coords`,
behind the strict boundary check. -/
def Board.add (self : Board) (board : Board) (ic : Coords) : Except BoardError Board :=
  if ic.y + board.dim_y ≥ self.dim_y ∨ ic.x + board.dim_x ≥ self.dim_x then
    .error .outOfBounds
  else
    .ok (Board.writeCells self board.dim_x board.dim_y ic.x ic.y
      (fun x y => board.alive ⟨x, y⟩))

/-- `usize::checked_add_signed`: `none` when the signed sum is negative. -/
def checkedAddSigned (n : Nat) (i : Int) : Option Nat :=
  if 0 ≤ (n : Int) + i then some ((n : Int) + i).toNat else none

/-- `Board::neighbor_coords`: the coordinates of the neighbor in the given
direction, or `none` if that would be off the board. -/
def Board.neighbor_coords (b : Board) (c : Coords) (d : Direction) : Option Coords :=
  match checkedAddSigned c.x d.offset.1 with
  | none => none
  | some x =>
    match checkedAddSigned c.y d.offset.2 with
    | none => none
    | some y =>
      if x ≥ b.dims.x ∨ y ≥ b.dims.y then none else some ⟨x, y⟩

def Board.neighbor_alive (b : Board) (c : Coords) (d : Direction) : Bool :=
  match b.neighbor_coords c d with
  | some nc => b.alive nc
  | none => false

def Board.num_alive_neighbors (b : Board) (c : Coords) : Nat :=
  ((Direction.all.map (fun d => b.neighbor_alive c d)).filter (fun a => a)).length

def Board.next_cell_state (b : Board) (c : Coords) : Bool :=
  match b.alive c, b.num_alive_neighbors c with
  | true, 0 => false
  | true, 1 => false
  | true, 2 => true
  | true, 3 => true
  | true, _ => false
  | false, 3 => true
  | false, _ => false

/-- `Board::next`: fresh all-dead board of the same dimensions (its `unwrap`
modelled by `Option`), then every cell set from the current generation. -/
def Board.next (b : Board) : Option Board :=
  match Board.new b.dims none with
  | .error _ => none
  | .ok fresh => some (Board.writeCells fresh b.dim_x b.dim_y 0 0
      (fun x y => b.next_cell_state ⟨x, y⟩))

def isWs (c : Char) : Bool := c.isWhitespace

/-- `str::trim`: drop whitespace from both ends. -/
def trimList (s : List Char) : List Char :=
  ((s.dropWhile isWs).reverse.dropWhile isWs).reverse

/-- Fuel-indexed worker for `splitWs`; the fuel only serves structural
termination and `splitWs` always supplies enough of it. -/
def splitWsGo : Nat → List Char → List (List Char)
  | 0, _ => []
  | _ + 1, [] => []
  | fuel + 1, c :: rest =>
    if isWs c then splitWsGo fuel rest
    else (c :: rest.takeWhile (fun ch => !isWs ch)) ::
      splitWsGo fuel (rest.dropWhile (fun ch => !isWs ch))

/-- `str::split_whitespace`: the maximal runs of non-whitespace characters. -/
def splitWs (s : List Char) : List (List Char) := splitWsGo s.length s

/-- Rows joined by single newlines (no trailing newline); proof-side helper
describing the shape of `Board::format`'s output. -/
def joinRows : List (List Char) → List Char
  | [] => []
  | [t] => t
  | t :: ts => t ++ '\n' :: joinRows ts

/-- The characters of one rendered row of `Board::format`. -/
def rowChars (b : Board) (y : Nat) : List Char :=
  (List.range b.dims.x).map (fun x => if b.alive ⟨x, y⟩ then ALIVE_CHAR else DEAD_CHAR)

/-- All rendered rows of `Board::format`, top to bottom. -/
def rowsOf (b : Board) : List (List Char) :=
  (List.range b.dims.y).map (rowChars b)

/-- The `filter_map` closure of `TryFrom<&str>`. -/
def charToCell (c : Char) : Option Bool :=
  if c = ALIVE_CHAR then some true
  else if c = DEAD_CHAR then some false
  else none

/-- `<Board as TryFrom<&str>>::try_from`.  The outer `Option` models the
panic: `row_lens[0]` in the `dims` construction indexes an empty vector
when the trimmed input has no tokens (the ragged-rows `any` closure is
never called on an empty `skip(1)` iterator, so it cannot panic first). -/
def Board.tryFrom (s : List Char) : Option (Except BoardError Board) :=
  let t := trimList s
  if t.all (fun c => isWs c || c == ALIVE_CHAR || c == DEAD_CHAR) then
    let rowLens := (splitWs t).map List.length
    if (rowLens.drop 1).any (fun len => len != rowLens.getD 0 0) then
      some (.error .raggedRows)
    else
      match rowLens.head? with
      | none => none
      | some len0 =>
        some (Board.new ⟨len0, rowLens.length⟩ (some (t.filterMap charToCell)))
  else some (.error .invalidCharacter)

/-- `impl Display for Board`: rows emitted for `y` from `0` to `height - 1`,
one line per row, alive/dead glyph per cell, newline after every row. -/
def Board.format (b : Board) : List Char :=
  (List.range b.dims.y).flatMap (fun y =>
    ((List.range b.dims.x).map (fun x =>
      if b.alive ⟨x, y⟩ then ALIVE_CHAR else DEAD_CHAR)) ++ ['\n'])

/-- The string literal of `Board::blinker`, with its source indentation. -/
def blinkerText : List Char :=
  ("\n        -----\n        --x--\n        --x--\n        --x--\n        -----\n        ").toList

/-- `Board::blinker`: parse the blinker pattern; its `unwrap` is modelled by
`Option` (`none` on panic or parse error). -/
def Board.blinker : Option Board :=
  match Board.tryFrom blinkerText with
  | some (.ok b) => some b
  | _ => none

/-- A structurally valid board as the data-model invariants describe it:
positive dimensions and a cell list of exactly `width * height` entries. -/
def Board.Valid (b : Board) : Prop :=
  0 < b.dims.x ∧ 0 < b.dims.y ∧ b.cells.length = b.dims.x * b.dims.y

instance (b : Board) : Decidable b.Valid := by
  unfold Board.Valid
  infer_instance

/-- The 8 neighbor offsets named by the specification (N, NE, E, SE, S, SW,
W, NW as ±1 in x and/or y), in the order the source iterates them. -/
def adjacentDeltas : List (Int × Int) :=
  [(0, 1), (1, 1), (1, 0), (1, -1), (0, -1), (-1, -1), (-1, 0), (-1, 1)]

/-- Spec-side neighbor aliveness at a signed delta: the position is counted
alive exactly when it lies inside the grid (no wraparound) and holds an
alive cell; any position outside the grid counts as dead. -/
def specAdjAlive (b : Board) (x y : Nat) (dx dy : Int) : Bool :=
  let nx : Int := (x : Int) + dx
  let ny : Int := (y : Int) + dy
  decide (0 ≤ nx) && decide (nx < (b.dims.x : Int)) &&
    decide (0 ≤ ny) && decide (ny < (b.dims.y : Int)) &&
    b.alive ⟨nx.toNat, ny.toNat⟩

/-- Spec-side neighbor count: alive positions among the 8 adjacent deltas. -/
def specNeighborCount (b : Board) (x y : Nat) : Nat :=
  ((adjacentDeltas.map (fun d => specAdjAlive b x y d.1 d.2)).filter (fun a => a)).length

/-! ### Basic facts about `set_alive` and the write loops -/

theorem set_alive_dims (b : Board) (c : Coords) (a : Bool) :
    (b.set_alive c a).dims = b.dims := rfl

theorem set_alive_length (b : Board) (c : Coords) (a : Bool) :
    (b.set_alive c a).cells.length = b.cells.length :=
  List.length_set b.cells (b.index c) a

theorem set_alive_getElem (b : Board) (c : Coords) (a : Bool) (i : Nat) :
    (b.set_alive c a).cells[i]? =
      if b.index c = i then (if b.index c < b.cells.length then some a else none)
      else b.cells[i]? := by
  simp [Board.set_alive, List.getElem?_set]

theorem index_inj {W x1 y1 x2 y2 : Nat} (h1 : x1 < W) (h2 : x2 < W)
    (h : y1 * W + x1 = y2 * W + x2) : x1 = x2 ∧ y1 = y2 := by
  have hx : x1 = x2 := by
    have e : (W * y1 + x1) % W = (W * y2 + x2) % W := by
      rw [Nat.mul_comm W y1, Nat.mul_comm W y2, h]
    rwa [Nat.mul_add_mod, Nat.mul_add_mod, Nat.mod_eq_of_lt h1, Nat.mod_eq_of_lt h2] at e
  refine ⟨hx, ?_⟩
  subst hx
  have hw : 0 < W := Nat.lt_of_le_of_lt (Nat.zero_le _) h1
  have hm : y1 * W = y2 * W := by omega
  exact Nat.eq_of_mul_eq_mul_right hw hm

theorem idx_lt {W H u v : Nat} (hu : u < W) (hv : v < H) : v * W + u < W * H :=
  calc v * W + u < v * W + W := Nat.add_lt_add_left hu _
    _ = (v + 1) * W := by ring
    _ ≤ H * W := Nat.mul_le_mul_right W (Nat.succ_le_of_lt hv)
    _ = W * H := Nat.mul_comm H W

theorem writeRow_succ (init : Board) (ow icx icy y : Nat) (f : Nat → Nat → Bool) :
    Board.writeRow init (ow + 1) icx icy y f
      = Board.set_alive (Board.writeRow init ow icx icy y f) ⟨ow + icx, y + icy⟩ (f ow y) := by
  unfold Board.writeRow
  rw [List.range_succ, List.foldl_append, List.foldl_cons, List.foldl_nil]

theorem writeRow_dims (init : Board) (ow icx icy y : Nat) (f : Nat → Nat → Bool) :
    (Board.writeRow init ow icx icy y f).dims = init.dims := by
  induction ow with
  | zero => rfl
  | succ n ih => rw [writeRow_succ, set_alive_dims, ih]

theorem writeRow_length (init : Board) (ow icx icy y : Nat) (f : Nat → Nat → Bool) :
    (Board.writeRow init ow icx icy y f).cells.length = init.cells.length := by
  induction ow with
  | zero => rfl
  | succ n ih => rw [writeRow_succ, set_alive_length, ih]

theorem writeRow_get_hit (init : Board) (ow icx icy y x0 : Nat) (f : Nat → Nat → Bool)
    (hx : x0 < ow) (hlen : (y + icy) * init.dims.x + (x0 + icx) < init.cells.length) :
    (Board.writeRow init ow icx icy y f).cells[(y + icy) * init.dims.x + (x0 + icx)]?
      = some (f x0 y) := by
  induction ow with
  | zero => omega
  | succ n ih =>
    rw [writeRow_succ, set_alive_getElem]
    have hidx : (Board.writeRow init n icx icy y f).index ⟨n + icx, y + icy⟩
        = (y + icy) * init.dims.x + (n + icx) := by
      simp [Board.index, writeRow_dims]
    rw [hidx, writeRow_length]
    rcases Nat.lt_or_ge x0 n with h | h
    · rw [if_neg (by omega)]
      exact ih h
    · have hx0 : x0 = n := by omega
      subst hx0
      rw [if_pos rfl, if_pos hlen]

theorem writeRow_get_miss (init : Board) (ow icx icy y : Nat) (f : Nat → Nat → Bool) (i : Nat)
    (h : ∀ x, x < ow → i ≠ (y + icy) * init.dims.x + (x + icx)) :
    (Board.writeRow init ow icx icy y f).cells[i]? = init.cells[i]? := by
  induction ow with
  | zero => rfl
  | succ n ih =>
    rw [writeRow_succ, set_alive_getElem]
    have hidx : (Board.writeRow init n icx icy y f).index ⟨n + icx, y + icy⟩
        = (y + icy) * init.dims.x + (n + icx) := by
      simp [Board.index, writeRow_dims]
    rw [hidx]
    rw [if_neg (fun he => h n (Nat.lt_succ_self n) he.symm)]
    exact ih (fun x hx => h x (Nat.lt_succ_of_lt hx))

theorem writeCells_succ (init : Board) (ow oh icx icy : Nat) (f : Nat → Nat → Bool) :
    Board.writeCells init ow (oh + 1) icx icy f
      = Board.writeRow (Board.writeCells init ow oh icx icy f) ow icx icy oh f := by
  unfold Board.writeCells
  rw [List.range_succ, List.foldl_append, List.foldl_cons, List.foldl_nil]

theorem writeCells_dims (init : Board) (ow oh icx icy : Nat) (f : Nat → Nat → Bool) :
    (Board.writeCells init ow oh icx icy f).dims = init.dims := by
  induction oh with
  | zero => rfl
  | succ n ih => rw [writeCells_succ, writeRow_dims, ih]

theorem writeCells_length (init : Board) (ow oh icx icy : Nat) (f : Nat → Nat → Bool) :
    (Board.writeCells init ow oh icx icy f).cells.length = init.cells.length := by
  induction oh with
  | zero => rfl
  | succ n ih => rw [writeCells_succ, writeRow_length, ih]

theorem writeCells_get_hit (init : Board) (ow oh icx icy x0 y0 : Nat) (f : Nat → Nat → Bool)
    (hcol : ∀ x, x < ow → x + icx < init.dims.x)
    (hx : x0 < ow) (hy : y0 < oh)
    (hlen : (y0 + icy) * init.dims.x + (x0 + icx) < init.cells.length) :
    (Board.writeCells init ow oh icx icy f).cells[(y0 + icy) * init.dims.x + (x0 + icx)]?
      = some (f x0 y0) := by
  induction oh with
  | zero => omega
  | succ n ih =>
    rw [writeCells_succ]
    rcases Nat.lt_or_ge y0 n with h | h
    · rw [writeRow_get_miss]
      · exact ih h
      · intro x hxo he
        rw [writeCells_dims] at he
        rcases index_inj (hcol x0 hx) (hcol x hxo) he with ⟨_, hy2⟩
        omega
    · have hy0 : y0 = n := by omega
      have hW : (Board.writeCells init ow n icx icy f).dims.x = init.dims.x :=
        congrArg Coords.x (writeCells_dims init ow n icx icy f)
      have hh := writeRow_get_hit (Board.writeCells init ow n icx icy f) ow icx icy n x0 f hx
        (by rw [hW, writeCells_length, ← hy0]; exact hlen)
      rw [hW] at hh
      rw [hy0]
      exact hh

theorem writeCells_get_miss (init : Board) (ow oh icx icy u v : Nat) (f : Nat → Nat → Bool)
    (hcol : ∀ x, x < ow → x + icx < init.dims.x)
    (hu : u < init.dims.x)
    (hout : ¬(icx ≤ u ∧ u < icx + ow ∧ icy ≤ v ∧ v < icy + oh)) :
    (Board.writeCells init ow oh icx icy f).cells[v * init.dims.x + u]?
      = init.cells[v * init.dims.x + u]? := by
  induction oh with
  | zero => rfl
  | succ n ih =>
    rw [writeCells_succ, writeRow_get_miss]
    · exact ih (fun hin => hout ⟨hin.1, hin.2.1, hin.2.2.1, Nat.lt_succ_of_lt hin.2.2.2⟩)
    · intro x hxo he
      rw [writeCells_dims] at he
      rcases index_inj hu (hcol x hxo) he with ⟨hu2, hv2⟩
      exact hout ⟨by omega, by omega, by omega, by omega⟩

theorem writeCells_alive_inside (init : Board) (ow oh icx icy x0 y0 : Nat)
    (f : Nat → Nat → Bool)
    (hcol : icx + ow ≤ init.dims.x) (hrow : icy + oh ≤ init.dims.y)
    (hlen : init.cells.length = init.dims.x * init.dims.y)
    (hx : x0 < ow) (hy : y0 < oh) :
    (Board.writeCells init ow oh icx icy f).alive ⟨x0 + icx, y0 + icy⟩ = f x0 y0 := by
  have hidx : (Board.writeCells init ow oh icx icy f).index ⟨x0 + icx, y0 + icy⟩
      = (y0 + icy) * init.dims.x + (x0 + icx) := by
    simp [Board.index, writeCells_dims]
  rw [Board.alive, hidx, List.getD_eq_getElem?_getD,
    writeCells_get_hit init ow oh icx icy x0 y0 f (fun x hxo => by omega) hx hy
      (by rw [hlen]; exact idx_lt (by omega) (by omega))]
  rfl

theorem writeCells_alive_outside (init : Board) (ow oh icx icy u v : Nat)
    (f : Nat → Nat → Bool)
    (hcol : icx + ow ≤ init.dims.x) (hu : u < init.dims.x)
    (hout : ¬(icx ≤ u ∧ u < icx + ow ∧ icy ≤ v ∧ v < icy + oh)) :
    (Board.writeCells init ow oh icx icy f).alive ⟨u, v⟩ = init.alive ⟨u, v⟩ := by
  have hidx : (Board.writeCells init ow oh icx icy f).index ⟨u, v⟩
      = v * init.dims.x + u := by
    simp [Board.index, writeCells_dims]
  rw [Board.alive, hidx, List.getD_eq_getElem?_getD,
    writeCells_get_miss init ow oh icx icy u v f (fun x hxo => by omega) hu hout]
  simp [Board.alive, Board.index, List.getD_eq_getElem?_getD]

/-! ### The generation step: neighbor counting and the rule table -/

theorem next_eq_of_valid (b : Board) (h : 0 < b.dims.x * b.dims.y) :
    b.next = some (Board.writeCells ⟨b.dims, List.replicate (b.dims.x * b.dims.y) false⟩
      b.dims.x b.dims.y 0 0 (fun x y => b.next_cell_state ⟨x, y⟩)) := by
  unfold Board.next Board.new
  simp only [gt_iff_lt, h, if_true, Board.dim_x, Board.dim_y]

theorem next_cell_state_eq_rule (b : Board) (c : Coords) :
    b.next_cell_state c = (if b.alive c
      then decide (2 ≤ b.num_alive_neighbors c ∧ b.num_alive_neighbors c ≤ 3)
      else decide (b.num_alive_neighbors c = 3)) := by
  unfold Board.next_cell_state
  cases hb : b.alive c <;>
    rcases hn : b.num_alive_neighbors c with _ | _ | _ | _ | n <;>
    simp

theorem neighbor_alive_eq_spec (b : Board) (c : Coords) (d : Direction) :
    b.neighbor_alive c d = specAdjAlive b c.x c.y d.offset.1 d.offset.2 := by
  rcases hd : d.offset with ⟨dx, dy⟩
  simp only [Board.neighbor_alive, Board.neighbor_coords, checkedAddSigned, hd, specAdjAlive]
  by_cases h1 : (0 : Int) ≤ (c.x : Int) + dx
  · by_cases h2 : (0 : Int) ≤ (c.y : Int) + dy
    · rw [if_pos h1, if_pos h2]
      by_cases h3 : ((c.x : Int) + dx).toNat ≥ b.dims.x
      · have hs : ¬((c.x : Int) + dx < (b.dims.x : Int)) := by omega
        simp [h1, h2, h3, hs]
      · by_cases h4 : ((c.y : Int) + dy).toNat ≥ b.dims.y
        · have hs : ¬((c.y : Int) + dy < (b.dims.y : Int)) := by omega
          simp [h1, h2, h4, hs]
        · have hs3 : (c.x : Int) + dx < (b.dims.x : Int) := by omega
          have hs4 : (c.y : Int) + dy < (b.dims.y : Int) := by omega
          simp [h1, h2, h3, h4, hs3, hs4]
    · rw [if_pos h1, if_neg h2]
      simp [h2]
  · rw [if_neg h1]
    simp [h1]

theorem num_alive_neighbors_eq_spec (b : Board) (c : Coords) :
    b.num_alive_neighbors c = specNeighborCount b c.x c.y := by
  have h : Direction.all.map (fun d => b.neighbor_alive c d)
      = adjacentDeltas.map (fun d => specAdjAlive b c.x c.y d.1 d.2) := by
    simp only [Direction.all, adjacentDeltas, List.map_cons, List.map_nil,
      neighbor_alive_eq_spec, Direction.offset]
  unfold Board.num_alive_neighbors specNeighborCount
  rw [h]

/-! ### Claim theorems on the generation step, compositing and construction -/

/-- C1: for every valid board and in-range cell, the cell's state in the
next generation follows the exact Conway rules computed from the current
generation only: an alive cell survives iff it has 2 or 3 alive neighbors
(0 or 1 underpopulation, 4+ overpopulation kill it), a dead cell becomes
alive iff it has exactly 3 alive neighbors; the neighbor count ranges over
the 8 adjacent positions and positions outside the grid count as dead. -/
theorem c1_next_follows_conway_rules (b : Board) (x y : Nat)
    (hb : b.Valid) (hx : x < b.dims.x) (hy : y < b.dims.y) :
    ∃ nb, b.next = some nb ∧
      nb.alive ⟨x, y⟩ = (if b.alive ⟨x, y⟩
        then decide (2 ≤ specNeighborCount b x y ∧ specNeighborCount b x y ≤ 3)
        else decide (specNeighborCount b x y = 3)) := by
  obtain ⟨hw, hh, hlen⟩ := hb
  refine ⟨_, next_eq_of_valid b (Nat.mul_pos hw hh), ?_⟩
  have hin := writeCells_alive_inside ⟨b.dims, List.replicate (b.dims.x * b.dims.y) false⟩
    b.dims.x b.dims.y 0 0 x y (fun x y => b.next_cell_state ⟨x, y⟩)
    (by simp) (by simp) (by simp) hx hy
  calc (Board.writeCells ⟨b.dims, List.replicate (b.dims.x * b.dims.y) false⟩
        b.dims.x b.dims.y 0 0 (fun x y => b.next_cell_state ⟨x, y⟩)).alive ⟨x, y⟩
      = b.next_cell_state ⟨x, y⟩ := by simpa using hin
    _ = _ := by rw [next_cell_state_eq_rule, num_alive_neighbors_eq_spec]

/-- Witness for C1 at a concrete input: the center of a 3×3 vertical bar
is alive with two alive neighbors, so it survives. -/
theorem c1_witness :
    (Board.Valid ⟨⟨3, 3⟩, [false, true, false, false, true, false, false, true, false]⟩
      ∧ 1 < (3 : Nat) ∧ 1 < (3 : Nat)) ∧
    (∃ nb, (⟨⟨3, 3⟩, [false, true, false, false, true, false, false, true, false]⟩ : Board).next
        = some nb ∧
      nb.alive ⟨1, 1⟩ = (if (⟨⟨3, 3⟩, [false, true, false, false, true, false, false, true,
          false]⟩ : Board).alive ⟨1, 1⟩
        then decide (2 ≤ specNeighborCount ⟨⟨3, 3⟩, [false, true, false, false, true, false,
          false, true, false]⟩ 1 1 ∧ specNeighborCount ⟨⟨3, 3⟩, [false, true, false, false,
          true, false, false, true, false]⟩ 1 1 ≤ 3)
        else decide (specNeighborCount ⟨⟨3, 3⟩, [false, true, false, false, true, false,
          false, true, false]⟩ 1 1 = 3))) :=
  ⟨⟨by decide, by decide, by decide⟩,
    c1_next_follows_conway_rules _ 1 1 (by decide) (by decide) (by decide)⟩

/-- C3: `add` fails with `OutOfBounds` exactly when
`offset.x + other.width ≥ self.width` or `offset.y + other.height ≥
self.height` (strict margin on the far edges), and succeeds otherwise. -/
theorem c3_add_out_of_bounds_iff (self other : Board) (off : Coords)
    (_h1 : self.Valid) (_h2 : other.Valid) :
    (self.add other off = .error .outOfBounds
      ↔ (off.x + other.dims.x ≥ self.dims.x ∨ off.y + other.dims.y ≥ self.dims.y)) ∧
    (¬(off.x + other.dims.x ≥ self.dims.x ∨ off.y + other.dims.y ≥ self.dims.y) →
      ∃ r, self.add other off = .ok r) := by
  unfold Board.add Board.dim_x Board.dim_y
  by_cases hc : off.y + other.dims.y ≥ self.dims.y ∨ off.x + other.dims.x ≥ self.dims.x
  · rw [if_pos hc]
    exact ⟨⟨fun _ => hc.symm, fun _ => rfl⟩, fun hn => (hn hc.symm).elim⟩
  · rw [if_neg hc]
    exact ⟨⟨fun h => Except.noConfusion h, fun hd => (hc hd.symm).elim⟩, fun _ => ⟨_, rfl⟩⟩

/-- Witness for C3 at concrete inputs: a 1×1 board into a 3×3 board. -/
theorem c3_witness :
    (Board.Valid ⟨⟨3, 3⟩, List.replicate 9 false⟩ ∧ Board.Valid ⟨⟨1, 1⟩, [true]⟩) ∧
    ((⟨⟨3, 3⟩, List.replicate 9 false⟩ : Board).add ⟨⟨1, 1⟩, [true]⟩ ⟨0, 0⟩
        = .error .outOfBounds ↔ ((0 : Nat) + 1 ≥ 3 ∨ (0 : Nat) + 1 ≥ 3)) ∧
    (¬((0 : Nat) + 1 ≥ 3 ∨ (0 : Nat) + 1 ≥ 3) →
      ∃ r, (⟨⟨3, 3⟩, List.replicate 9 false⟩ : Board).add ⟨⟨1, 1⟩, [true]⟩ ⟨0, 0⟩ = .ok r) :=
  ⟨⟨by decide, by decide⟩,
    (c3_add_out_of_bounds_iff ⟨⟨3, 3⟩, List.replicate 9 false⟩ ⟨⟨1, 1⟩, [true]⟩ ⟨0, 0⟩
      (by decide) (by decide)).1,
    (c3_add_out_of_bounds_iff ⟨⟨3, 3⟩, List.replicate 9 false⟩ ⟨⟨1, 1⟩, [true]⟩ ⟨0, 0⟩
      (by decide) (by decide)).2⟩

/-- C6: a successful `add` returns a board whose cells inside the offset
rectangle are exactly `other`'s cells (overwriting, not OR-ing: a dead
source cell kills a previously-alive destination cell) and whose cells
outside that rectangle are exactly `self`'s cells.  The model's operations
are pure functions on immutable values, so `self` and `other` themselves
are unmodified by construction. -/
theorem c6_add_overlay_frame (self other : Board) (off : Coords)
    (h1 : self.Valid) (_h2 : other.Valid)
    (hin : off.x + other.dims.x < self.dims.x ∧ off.y + other.dims.y < self.dims.y) :
    ∃ r, self.add other off = .ok r ∧
      (∀ x y, x < other.dims.x → y < other.dims.y →
        r.alive ⟨x + off.x, y + off.y⟩ = other.alive ⟨x, y⟩) ∧
      (∀ u v, u < self.dims.x → v < self.dims.y →
        ¬(off.x ≤ u ∧ u < off.x + other.dims.x ∧ off.y ≤ v ∧ v < off.y + other.dims.y) →
        r.alive ⟨u, v⟩ = self.alive ⟨u, v⟩) := by
  unfold Board.add Board.dim_x Board.dim_y
  rw [if_neg (by omega)]
  refine ⟨_, rfl, ?_, ?_⟩
  · intro x y hxo hyo
    exact writeCells_alive_inside self other.dims.x other.dims.y off.x off.y x y
      (fun x y => other.alive ⟨x, y⟩) (by omega) (by omega) h1.2.2 hxo hyo
  · intro u v hu hv hout
    exact writeCells_alive_outside self other.dims.x other.dims.y off.x off.y u v
      (fun x y => other.alive ⟨x, y⟩) (by omega) hu hout

/-- Witness for C6 at concrete inputs: a dead 1×1 board composited into an
all-alive 3×3 board at offset (1,1). -/
theorem c6_witness :
    (Board.Valid ⟨⟨3, 3⟩, List.replicate 9 true⟩ ∧ Board.Valid ⟨⟨1, 1⟩, [false]⟩
      ∧ ((1 : Nat) + 1 < 3 ∧ (1 : Nat) + 1 < 3)) ∧
    (∃ r, (⟨⟨3, 3⟩, List.replicate 9 true⟩ : Board).add ⟨⟨1, 1⟩, [false]⟩ ⟨1, 1⟩ = .ok r ∧
      (∀ x y, x < (1 : Nat) → y < (1 : Nat) →
        r.alive ⟨x + 1, y + 1⟩ = (⟨⟨1, 1⟩, [false]⟩ : Board).alive ⟨x, y⟩) ∧
      (∀ u v, u < (3 : Nat) → v < (3 : Nat) →
        ¬((1 : Nat) ≤ u ∧ u < 1 + 1 ∧ (1 : Nat) ≤ v ∧ v < 1 + 1) →
        r.alive ⟨u, v⟩ = (⟨⟨3, 3⟩, List.replicate 9 true⟩ : Board).alive ⟨u, v⟩)) :=
  ⟨⟨by decide, by decide, by decide, by decide⟩,
    c6_add_overlay_frame ⟨⟨3, 3⟩, List.replicate 9 true⟩ ⟨⟨1, 1⟩, [false]⟩ ⟨1, 1⟩
      (by decide) (by decide) ⟨by decide, by decide⟩⟩

/-- C8: for every valid board, `next` is total: the internal
`Board::new(dims, None).unwrap()` cannot fail because the dimensions are
positive, and every write stays in bounds, so `next` returns a board. -/
theorem c8_next_total (b : Board) (hb : b.Valid) : (b.next).isSome = true := by
  rw [next_eq_of_valid b (Nat.mul_pos hb.1 hb.2.1)]
  rfl

/-- Witness for C8 at a concrete input. -/
theorem c8_witness :
    Board.Valid ⟨⟨2, 2⟩, [true, false, false, true]⟩ ∧
    ((⟨⟨2, 2⟩, [true, false, false, true]⟩ : Board).next).isSome = true :=
  ⟨by decide, c8_next_total ⟨⟨2, 2⟩, [true, false, false, true]⟩ (by decide)⟩

/-- C9: `new` fails with `InvalidDimensions` iff the area is zero; with a
supplied cell vector and nonzero area it fails with `SizeMismatch` iff the
vector's length differs from `width * height`; with no cell vector and
nonzero area it succeeds with an all-dead board. -/
theorem c9_new_contract (dims : Coords) (cells : List Bool) :
    (∀ oc : Option (List Bool),
      Board.new dims oc = .error .invalidDimensions ↔ dims.x * dims.y = 0) ∧
    (dims.x * dims.y ≠ 0 →
      (Board.new dims (some cells) = .error .sizeMismatch
        ↔ cells.length ≠ dims.x * dims.y)) ∧
    (dims.x * dims.y ≠ 0 →
      ∃ b, Board.new dims none = .ok b ∧
        ∀ x y, x < dims.x → y < dims.y → b.alive ⟨x, y⟩ = false) := by
  refine ⟨?_, ?_, ?_⟩
  · intro oc
    constructor
    · intro h
      by_contra hz
      have hpos : 0 < dims.x * dims.y := Nat.pos_of_ne_zero hz
      rcases oc with _ | cs
      · simp [Board.new, hpos] at h
      · by_cases hlen : cs.length = dims.x * dims.y <;>
          simp [Board.new, hpos, hlen] at h
    · intro h
      have hneg : ¬(0 < dims.x * dims.y) := by omega
      rcases oc with _ | cs <;> simp [Board.new, hneg]
  · intro hz
    have hpos : 0 < dims.x * dims.y := Nat.pos_of_ne_zero hz
    constructor
    · intro h
      by_contra hlen
      simp [Board.new, hpos, hlen] at h
    · intro h
      simp [Board.new, hpos, h]
  · intro hz
    have hpos : 0 < dims.x * dims.y := Nat.pos_of_ne_zero hz
    refine ⟨⟨dims, List.replicate (dims.x * dims.y) false⟩, by simp [Board.new, hpos], ?_⟩
    intro x y hx hy
    simp only [Board.alive, Board.index, List.getD_eq_getElem?_getD, List.getElem?_replicate]
    split <;> rfl

/-- Witness for C9 at concrete inputs: 2×2 dimensions, 3-entry vector. -/
theorem c9_witness :
    (Board.new ⟨2, 2⟩ none = .error .invalidDimensions ↔ (2 : Nat) * 2 = 0) ∧
    ((2 : Nat) * 2 ≠ 0 ∧
      (Board.new ⟨2, 2⟩ (some [true, false, true]) = .error .sizeMismatch
        ↔ [true, false, true].length ≠ (2 : Nat) * 2)) ∧
    (∃ b, Board.new ⟨2, 2⟩ none = .ok b ∧
      ∀ x y, x < (2 : Nat) → y < (2 : Nat) → b.alive ⟨x, y⟩ = false) :=
  ⟨(c9_new_contract ⟨2, 2⟩ [true, false, true]).1 none,
    ⟨by decide, (c9_new_contract ⟨2, 2⟩ [true, false, true]).2.1 (by decide)⟩,
    (c9_new_contract ⟨2, 2⟩ [true, false, true]).2.2 (by decide)⟩

/-- C10: dimensions are preserved by the transforming operations: `next`
keeps the board's dimensions, and a successful `add` returns a board with
`self`'s dimensions, never `other`'s. -/
theorem c10_dims_preserved (b other r : Board) (off : Coords) (hb : b.Valid) :
    (∃ nb, b.next = some nb ∧ nb.dims = b.dims) ∧
    (b.add other off = .ok r → r.dims = b.dims) := by
  constructor
  · refine ⟨_, next_eq_of_valid b (Nat.mul_pos hb.1 hb.2.1), ?_⟩
    rw [writeCells_dims]
  · intro h
    unfold Board.add at h
    split at h
    · cases h
    · rw [Except.ok.injEq] at h
      rw [← h, writeCells_dims]

/-- Witness for C10 at concrete inputs: a 3×3 board, a 1×1 board added at
the origin. -/
theorem c10_witness :
    (Board.Valid ⟨⟨3, 3⟩, List.replicate 9 false⟩ ∧
      (⟨⟨3, 3⟩, List.replicate 9 false⟩ : Board).add ⟨⟨1, 1⟩, [true]⟩ ⟨0, 0⟩
        = .ok ⟨⟨3, 3⟩, [true, false, false, false, false, false, false, false, false]⟩) ∧
    ((∃ nb, (⟨⟨3, 3⟩, List.replicate 9 false⟩ : Board).next = some nb
        ∧ nb.dims = (⟨⟨3, 3⟩, List.replicate 9 false⟩ : Board).dims) ∧
      ((⟨⟨3, 3⟩, List.replicate 9 false⟩ : Board).add ⟨⟨1, 1⟩, [true]⟩ ⟨0, 0⟩
          = .ok ⟨⟨3, 3⟩, [true, false, false, false, false, false, false, false, false]⟩ →
        (⟨⟨3, 3⟩, [true, false, false, false, false, false, false, false,
          false]⟩ : Board).dims = (⟨⟨3, 3⟩, List.replicate 9 false⟩ : Board).dims)) :=
  ⟨⟨by decide, by decide⟩,
    c10_dims_preserved ⟨⟨3, 3⟩, List.replicate 9 false⟩ ⟨⟨1, 1⟩, [true]⟩
      ⟨⟨3, 3⟩, [true, false, false, false, false, false, false, false, false]⟩ ⟨0, 0⟩
      (by decide)⟩

/-! ### Splitting on whitespace -/

theorem splitWsGo_congr : ∀ (f1 f2 : Nat) (s : List Char), s.length ≤ f1 → s.length ≤ f2 →
    splitWsGo f1 s = splitWsGo f2 s := by
  intro f1
  induction f1 with
  | zero =>
    intro f2 s h1 h2
    have hs : s = [] := List.length_eq_zero.mp (Nat.le_zero.mp h1)
    subst hs
    cases f2 <;> rfl
  | succ n ih =>
    intro f2 s h1 h2
    cases s with
    | nil => cases f2 <;> rfl
    | cons c rest =>
      cases f2 with
      | zero => exact absurd h2 (by simp)
      | succ m =>
        simp only [splitWsGo]
        by_cases hc : isWs c
        · rw [if_pos hc, if_pos hc]
          exact ih m rest (by simp at h1; omega) (by simp at h2; omega)
        · rw [if_neg hc, if_neg hc]
          have hd := (List.dropWhile_sublist (l := rest) (fun ch => !isWs ch)).length_le
          rw [ih m _ (by simp at h1; omega) (by simp at h2; omega)]

theorem splitWs_cons_ws (c : Char) (rest : List Char) (h : isWs c = true) :
    splitWs (c :: rest) = splitWs rest := by
  show splitWsGo (c :: rest).length (c :: rest) = _
  simp only [List.length_cons, splitWsGo]
  rw [if_pos h]
  rfl

theorem splitWs_cons_not_ws (c : Char) (rest : List Char) (h : isWs c = false) :
    splitWs (c :: rest) = (c :: rest.takeWhile (fun ch => !isWs ch)) ::
      splitWs (rest.dropWhile (fun ch => !isWs ch)) := by
  show splitWsGo (c :: rest).length (c :: rest) = _
  simp only [List.length_cons, splitWsGo]
  rw [if_neg (by simp [h])]
  have hd := (List.dropWhile_sublist (l := rest) (fun ch => !isWs ch)).length_le
  rw [splitWsGo_congr rest.length (rest.dropWhile (fun ch => !isWs ch)).length _ hd le_rfl]
  rfl

theorem takeWhile_append_all (p : Char → Bool) (t s : List Char) (h : ∀ c ∈ t, p c = true) :
    (t ++ s).takeWhile p = t ++ s.takeWhile p := by
  induction t with
  | nil => rfl
  | cons a t ih =>
    simp only [List.cons_append, List.takeWhile_cons]
    rw [if_pos (h a (by simp)), ih (fun c hc => h c (by simp [hc]))]

theorem dropWhile_append_all (p : Char → Bool) (t s : List Char) (h : ∀ c ∈ t, p c = true) :
    (t ++ s).dropWhile p = s.dropWhile p := by
  induction t with
  | nil => rfl
  | cons a t ih =>
    simp only [List.cons_append, List.dropWhile_cons]
    rw [if_pos (h a (by simp))]
    exact ih (fun c hc => h c (by simp [hc]))

theorem takeWhile_nil_of_head (p : Char → Bool) (s : List Char)
    (h : ∀ c, s.head? = some c → p c = false) : s.takeWhile p = [] := by
  cases s with
  | nil => rfl
  | cons a t =>
    rw [List.takeWhile_cons, if_neg (by rw [h a rfl]; simp)]

theorem dropWhile_self_of_head (p : Char → Bool) (s : List Char)
    (h : ∀ c, s.head? = some c → p c = false) : s.dropWhile p = s := by
  cases s with
  | nil => rfl
  | cons a t =>
    rw [List.dropWhile_cons, if_neg (by rw [h a rfl]; simp)]

theorem splitWs_token (t s : List Char) (hne : t ≠ [])
    (ht : ∀ c ∈ t, isWs c = false)
    (hs : ∀ c, s.head? = some c → isWs c = true) :
    splitWs (t ++ s) = t :: splitWs s := by
  cases t with
  | nil => exact absurd rfl hne
  | cons a t =>
    rw [List.cons_append, splitWs_cons_not_ws a _ (ht a (by simp))]
    have h1 : (t ++ s).takeWhile (fun ch => !isWs ch) = t := by
      rw [takeWhile_append_all _ t s (fun c hc => by simp [ht c (by simp [hc])]),
        takeWhile_nil_of_head _ s (fun c hc => by simp [hs c hc]), List.append_nil]
    have h2 : (t ++ s).dropWhile (fun ch => !isWs ch) = s := by
      rw [dropWhile_append_all _ t s (fun c hc => by simp [ht c (by simp [hc])]),
        dropWhile_self_of_head _ s (fun c hc => by simp [hs c hc])]
    rw [h1, h2]

theorem joinRows_cons (t : List Char) (ts : List (List Char)) (h : ts ≠ []) :
    joinRows (t :: ts) = t ++ '\n' :: joinRows ts := by
  cases ts with
  | nil => exact absurd rfl h
  | cons a l => rfl

theorem splitWs_joinRows (ts : List (List Char))
    (h1 : ∀ t ∈ ts, t ≠ []) (h2 : ∀ t ∈ ts, ∀ c ∈ t, isWs c = false) :
    splitWs (joinRows ts) = ts := by
  induction ts with
  | nil => rfl
  | cons t ts ih =>
    cases ts with
    | nil =>
      show splitWs (joinRows [t]) = [t]
      have h := splitWs_token t [] (h1 t (by simp)) (h2 t (by simp))
        (by intro c hc; simp at hc)
      simpa [joinRows] using h
    | cons t2 ts2 =>
      rw [joinRows_cons t _ (by simp)]
      rw [splitWs_token t ('\n' :: joinRows (t2 :: ts2)) (h1 t (by simp)) (h2 t (by simp))
        (by intro c hc; simp at hc; subst hc; decide)]
      rw [splitWs_cons_ws _ _ (by decide)]
      rw [ih (fun x hx => h1 x (by simp [hx])) (fun x hx => h2 x (by simp [hx]))]

theorem splitWs_flatten_aux : ∀ (n : Nat) (s : List Char), s.length ≤ n →
    (splitWs s).flatten = s.filter (fun c => !isWs c) := by
  intro n
  induction n with
  | zero =>
    intro s h
    have hs : s = [] := List.length_eq_zero.mp (Nat.le_zero.mp h)
    subst hs
    rfl
  | succ n ih =>
    intro s h
    cases s with
    | nil => rfl
    | cons c rest =>
      by_cases hc : isWs c
      · rw [splitWs_cons_ws c rest hc, List.filter_cons, if_neg (by simp [hc])]
        exact ih rest (by simp at h; omega)
      · rw [splitWs_cons_not_ws c rest (by simp [hc]), List.filter_cons,
          if_pos (by simp [hc])]
        have hd := (List.dropWhile_sublist (l := rest) (fun ch => !isWs ch)).length_le
        rw [List.flatten_cons, ih (rest.dropWhile (fun ch => !isWs ch)) (by simp at h; omega)]
        have hsplit : rest.filter (fun ch => !isWs ch)
            = rest.takeWhile (fun ch => !isWs ch)
              ++ (rest.dropWhile (fun ch => !isWs ch)).filter (fun ch => !isWs ch) := by
          conv_lhs => rw [← List.takeWhile_append_dropWhile
            (p := fun ch => !isWs ch) (l := rest)]
          rw [List.filter_append,
            List.filter_eq_self.mpr
              (fun a ha => List.mem_takeWhile_imp (p := fun ch => !isWs ch) ha)]
        rw [List.cons_append, hsplit]

theorem splitWs_flatten (s : List Char) :
    (splitWs s).flatten = s.filter (fun c => !isWs c) :=
  splitWs_flatten_aux s.length s le_rfl

/-! ### Trimming and the shape of rendered output -/

theorem joinRows_ne_nil (ts : List (List Char)) (hne : ts ≠ [])
    (h1 : ∀ t ∈ ts, t ≠ []) : joinRows ts ≠ [] := by
  cases ts with
  | nil => exact absurd rfl hne
  | cons t ts =>
    cases ts with
    | nil => exact h1 t (by simp)
    | cons t2 ts2 =>
      rw [joinRows_cons _ _ (by simp)]
      intro h
      rcases List.append_eq_nil.mp h with ⟨_, h2⟩
      cases h2

theorem joinRows_head_nonws (ts : List (List Char))
    (h1 : ∀ t ∈ ts, t ≠ []) (h2 : ∀ t ∈ ts, ∀ c ∈ t, isWs c = false) :
    ∀ c, (joinRows ts).head? = some c → isWs c = false := by
  cases ts with
  | nil => intro c hc; cases hc
  | cons t ts =>
    cases ts with
    | nil =>
      intro c hc
      exact h2 t (by simp) c
        (List.mem_of_mem_head? (by rw [show t.head? = some c from hc]; simp))
    | cons t2 ts2 =>
      intro c hc
      rw [joinRows_cons _ _ (by simp)] at hc
      cases t with
      | nil => exact absurd rfl (h1 [] (by simp))
      | cons a l =>
        have hc2 : a = c := by simpa using hc
        subst hc2
        exact h2 (a :: l) (by simp) a (by simp)

theorem joinRows_last_nonws (ts : List (List Char))
    (h1 : ∀ t ∈ ts, t ≠ []) (h2 : ∀ t ∈ ts, ∀ c ∈ t, isWs c = false) :
    ∀ c, (joinRows ts).getLast? = some c → isWs c = false := by
  induction ts with
  | nil => intro c hc; cases hc
  | cons t ts ih =>
    cases ts with
    | nil =>
      intro c hc
      exact h2 t (by simp) c
        (List.mem_of_mem_getLast? (by rw [show t.getLast? = some c from hc]; simp))
    | cons t2 ts2 =>
      intro c hc
      rw [joinRows_cons _ _ (by simp), List.getLast?_append] at hc
      have hj : joinRows (t2 :: ts2) ≠ [] :=
        joinRows_ne_nil _ (by simp) (fun x hx => h1 x (by simp [hx]))
      have hcons : ('\n' :: joinRows (t2 :: ts2)).getLast? = (joinRows (t2 :: ts2)).getLast? := by
        have hga : (['\n'] ++ joinRows (t2 :: ts2)).getLast?
            = (joinRows (t2 :: ts2)).getLast?.or (['\n'] : List Char).getLast? :=
          List.getLast?_append
        rw [List.singleton_append] at hga
        rw [hga]
        cases hg : (joinRows (t2 :: ts2)).getLast? with
        | none => exact absurd (List.getLast?_eq_none_iff.mp hg) hj
        | some d => rfl
      rw [hcons] at hc
      cases hg : (joinRows (t2 :: ts2)).getLast? with
      | none => exact absurd (List.getLast?_eq_none_iff.mp hg) hj
      | some d =>
        rw [hg] at hc
        simp at hc
        have hgc : (joinRows (t2 :: ts2)).getLast? = some c := by rw [hg, hc]
        exact ih (fun x hx => h1 x (by simp [hx])) (fun x hx => h2 x (by simp [hx])) c hgc

theorem trimList_join_newline (j : List Char) (hne : j ≠ [])
    (hh : ∀ c, j.head? = some c → isWs c = false)
    (hl : ∀ c, j.getLast? = some c → isWs c = false) :
    trimList (j ++ ['\n']) = j := by
  unfold trimList
  have h1 : (j ++ ['\n']).dropWhile isWs = j ++ ['\n'] := by
    apply dropWhile_self_of_head
    intro c hc
    cases j with
    | nil => exact absurd rfl hne
    | cons a t =>
      rw [List.cons_append] at hc
      simp at hc
      exact hc ▸ hh a rfl
  have h2 : ('\n' :: j.reverse).dropWhile isWs = j.reverse := by
    rw [List.dropWhile_cons, if_pos (by decide)]
    apply dropWhile_self_of_head
    intro c hc
    rw [List.head?_reverse] at hc
    exact hl c hc
  rw [h1, show (j ++ ['\n']).reverse = '\n' :: j.reverse by simp, h2, List.reverse_reverse]

theorem mem_joinRows (ts : List (List Char)) (c : Char) (h : c ∈ joinRows ts) :
    c = '\n' ∨ ∃ t ∈ ts, c ∈ t := by
  induction ts with
  | nil => cases h
  | cons t ts ih =>
    cases ts with
    | nil => exact Or.inr ⟨t, by simp, h⟩
    | cons t2 ts2 =>
      rw [joinRows_cons _ _ (by simp)] at h
      rcases List.mem_append.mp h with h | h
      · exact Or.inr ⟨t, by simp, h⟩
      · rcases List.mem_cons.mp h with h | h
        · exact Or.inl h
        · rcases ih h with h | ⟨t3, ht3, hc3⟩
          · exact Or.inl h
          · exact Or.inr ⟨t3, by simp [List.mem_cons.mp ht3], hc3⟩

theorem flatMap_newline_eq_joinRows (ls : List (List Char)) (hne : ls ≠ []) :
    ls.flatMap (fun t => t ++ ['\n']) = joinRows ls ++ ['\n'] := by
  induction ls with
  | nil => exact absurd rfl hne
  | cons t ts ih =>
    cases ts with
    | nil => simp [joinRows]
    | cons t2 ts2 =>
      rw [List.flatMap_cons, ih (by simp), joinRows_cons t (t2 :: ts2) (by simp)]
      simp

/-! ### Rendered rows, cell recovery and the round trip -/

theorem format_eq (b : Board) :
    Board.format b = (rowsOf b).flatMap (fun t => t ++ ['\n']) := by
  unfold Board.format rowsOf rowChars
  rw [List.flatMap_map]

theorem rowChars_length (b : Board) (y : Nat) : (rowChars b y).length = b.dims.x := by
  simp [rowChars]

theorem rowChars_chars (b : Board) (y : Nat) :
    ∀ c ∈ rowChars b y, c = ALIVE_CHAR ∨ c = DEAD_CHAR := by
  intro c hc
  simp only [rowChars, List.mem_map] at hc
  rcases hc with ⟨x, _, hx⟩
  rw [← hx]
  split
  · exact Or.inl rfl
  · exact Or.inr rfl

theorem rowsOf_ne_nil (b : Board) (hh : 0 < b.dims.y) : rowsOf b ≠ [] := by
  simp [rowsOf, List.range_eq_nil]
  omega

theorem rowsOf_mem_ne_nil (b : Board) (hw : 0 < b.dims.x) : ∀ t ∈ rowsOf b, t ≠ [] := by
  intro t ht
  simp only [rowsOf, List.mem_map] at ht
  rcases ht with ⟨y, _, hy⟩
  rw [← hy]
  intro hnil
  have := rowChars_length b y
  rw [hnil] at this
  simp at this
  omega

theorem rowsOf_mem_chars (b : Board) :
    ∀ t ∈ rowsOf b, ∀ c ∈ t, c = ALIVE_CHAR ∨ c = DEAD_CHAR := by
  intro t ht
  simp only [rowsOf, List.mem_map] at ht
  rcases ht with ⟨y, _, hy⟩
  rw [← hy]
  exact rowChars_chars b y

theorem rowsOf_mem_nonws (b : Board) : ∀ t ∈ rowsOf b, ∀ c ∈ t, isWs c = false := by
  intro t ht c hc
  rcases rowsOf_mem_chars b t ht c hc with h | h <;> rw [h] <;> decide

theorem filterMap_joinRows (ts : List (List Char)) :
    (joinRows ts).filterMap charToCell = ts.flatMap (fun t => t.filterMap charToCell) := by
  induction ts with
  | nil => rfl
  | cons t ts ih =>
    cases ts with
    | nil => simp [joinRows]
    | cons t2 ts2 =>
      rw [joinRows_cons t (t2 :: ts2) (by simp), List.filterMap_append, List.flatMap_cons,
        List.filterMap_cons, show charToCell '\n' = none by decide, ih]

theorem filterMap_rowChars (b : Board) (y : Nat) :
    (rowChars b y).filterMap charToCell
      = (List.range b.dims.x).map (fun x => b.alive ⟨x, y⟩) := by
  unfold rowChars
  rw [List.filterMap_map]
  have hfun : (fun x => charToCell (if b.alive ⟨x, y⟩ then ALIVE_CHAR else DEAD_CHAR))
      = (fun x => some (b.alive ⟨x, y⟩)) := by
    funext x
    by_cases h : b.alive ⟨x, y⟩ = true
    · rw [if_pos h, h]
      decide
    · have hf : b.alive ⟨x, y⟩ = false := by
        cases hb : b.alive ⟨x, y⟩
        · rfl
        · exact absurd hb h
      rw [if_neg h, hf]
      decide
  have hfun2 : charToCell ∘ (fun x => if b.alive ⟨x, y⟩ then ALIVE_CHAR else DEAD_CHAR)
      = (fun x => some (b.alive ⟨x, y⟩)) := hfun
  rw [hfun2]
  show List.filterMap (some ∘ fun x => b.alive ⟨x, y⟩) (List.range b.dims.x) = _
  rw [List.filterMap_eq_map]

theorem map_range_getD (l : List Bool) (W : Nat) (hW : W ≤ l.length) :
    (List.range W).map (fun x => l.getD x false) = l.take W := by
  apply List.ext_getElem
  · simp [hW]
  · intro i h1 h2
    simp only [List.getElem_map, List.getElem_range, List.getElem_take,
      List.getD_eq_getElem?_getD]
    rw [List.getElem?_eq_getElem (by simp at h1; omega), Option.getD_some]

theorem reconstruct (W : Nat) : ∀ (H : Nat) (l : List Bool), l.length = W * H →
    (List.range H).flatMap (fun y => (List.range W).map (fun x => l.getD (y * W + x) false))
      = l := by
  intro H
  induction H with
  | zero =>
    intro l hlen
    rw [Nat.mul_zero] at hlen
    rw [List.length_eq_zero.mp hlen]
    rfl
  | succ H ih =>
    intro l hlen
    rw [List.range_succ_eq_map, List.flatMap_cons, List.flatMap_map]
    have h0 : (List.range W).map (fun x => l.getD (0 * W + x) false) = l.take W := by
      simp only [Nat.zero_mul, Nat.zero_add]
      exact map_range_getD l W (by rw [hlen, Nat.mul_succ]; omega)
    have hfun : (fun y => (List.range W).map (fun x => l.getD (Nat.succ y * W + x) false))
        = (fun y => (List.range W).map (fun x => (l.drop W).getD (y * W + x) false)) := by
      funext y
      refine congrArg (fun f => List.map f (List.range W)) ?_
      funext x
      rw [List.getD_eq_getElem?_getD, List.getD_eq_getElem?_getD, List.getElem?_drop,
        show Nat.succ y * W + x = W + (y * W + x) by rw [Nat.succ_mul]; omega]
    rw [h0, hfun, ih (l.drop W) (by rw [List.length_drop, hlen, Nat.mul_succ]; omega),
      List.take_append_drop]

/-- C2: rendering a valid board and re-parsing the rendered text yields
exactly the original board: `parse(format(b)) = Ok(b)`, same dimensions
and same cell states. -/
theorem c2_parse_format_roundtrip (b : Board) (hb : b.Valid) :
    Board.tryFrom (Board.format b) = some (.ok b) := by
  obtain ⟨hw, hh, hlen⟩ := hb
  have hrows_ne : rowsOf b ≠ [] := rowsOf_ne_nil b hh
  have hrow_ne : ∀ t ∈ rowsOf b, t ≠ [] := rowsOf_mem_ne_nil b hw
  have hrow_nonws : ∀ t ∈ rowsOf b, ∀ c ∈ t, isWs c = false := rowsOf_mem_nonws b
  have hfmt : Board.format b = joinRows (rowsOf b) ++ ['\n'] := by
    rw [format_eq, flatMap_newline_eq_joinRows _ hrows_ne]
  have htrim : trimList (Board.format b) = joinRows (rowsOf b) := by
    rw [hfmt]
    exact trimList_join_newline _ (joinRows_ne_nil _ hrows_ne hrow_ne)
      (joinRows_head_nonws _ hrow_ne hrow_nonws)
      (joinRows_last_nonws _ hrow_ne hrow_nonws)
  have hsplit : splitWs (trimList (Board.format b)) = rowsOf b := by
    rw [htrim]
    exact splitWs_joinRows _ hrow_ne hrow_nonws
  have hall : (trimList (Board.format b)).all
      (fun c => isWs c || c == ALIVE_CHAR || c == DEAD_CHAR) = true := by
    rw [htrim, List.all_eq_true]
    intro c hc
    rcases mem_joinRows _ c hc with h | ⟨t, ht, hct⟩
    · subst h; decide
    · rcases rowsOf_mem_chars b t ht c hct with h | h <;> subst h <;> decide
  have hlens : (splitWs (trimList (Board.format b))).map List.length
      = List.replicate b.dims.y b.dims.x := by
    rw [hsplit]
    unfold rowsOf
    rw [List.map_map]
    have hconst : (List.length ∘ rowChars b) = Function.const Nat b.dims.x := by
      funext y
      exact rowChars_length b y
    rw [hconst, List.map_const, List.length_range]
  have hcells : (trimList (Board.format b)).filterMap charToCell = b.cells := by
    rw [htrim, filterMap_joinRows]
    unfold rowsOf
    rw [List.flatMap_map]
    have hfn : (fun y => (rowChars b y).filterMap charToCell)
        = (fun y => (List.range b.dims.x).map
            (fun x => b.cells.getD (y * b.dims.x + x) false)) := by
      funext y
      rw [filterMap_rowChars]
      rfl
    rw [hfn]
    exact reconstruct b.dims.x b.dims.y b.cells hlen
  have hragged : ((List.replicate b.dims.y b.dims.x).drop 1).any
      (fun len => len != (List.replicate b.dims.y b.dims.x).getD 0 0) = false := by
    rw [List.any_eq_false]
    intro len hmem
    rw [List.drop_replicate] at hmem
    have hl : len = b.dims.x := (List.mem_replicate.mp hmem).2
    have hg : (List.replicate b.dims.y b.dims.x).getD 0 0 = b.dims.x := by
      rw [List.getD_eq_getElem?_getD, List.getElem?_replicate, if_pos hh]
      rfl
    rw [hl, hg]
    simp
  have hhead : (List.replicate b.dims.y b.dims.x).head? = some b.dims.x := by
    cases hY : b.dims.y with
    | zero => omega
    | succ n => rw [List.replicate_succ]; rfl
  simp only [Board.tryFrom]
  rw [if_pos hall, hlens, hragged]
  simp only [Bool.false_eq_true, if_false, hhead]
  rw [List.length_replicate, hcells]
  have hnew : Board.new ⟨b.dims.x, b.dims.y⟩ (some b.cells) = .ok b := by
    simp [Board.new, Nat.mul_pos hw hh, hlen]
  rw [hnew]

/-- Witness for C2 at a concrete input: a 2×2 board with two alive cells. -/
theorem c2_witness :
    Board.Valid ⟨⟨2, 2⟩, [true, false, false, true]⟩ ∧
    Board.tryFrom (Board.format ⟨⟨2, 2⟩, [true, false, false, true]⟩)
      = some (.ok ⟨⟨2, 2⟩, [true, false, false, true]⟩) :=
  ⟨by decide, c2_parse_format_roundtrip ⟨⟨2, 2⟩, [true, false, false, true]⟩ (by decide)⟩

/-! ### Blinker, parse failure modes, and row orientation -/

/-- C7: the 5×5 blinker preset parses to the vertical bar at column x=2,
rows y=1..3; one `next` yields exactly the horizontal bar at row y=2,
columns x=1..3 with all other cells dead; a second `next` returns the
original board (period-2 oscillator). -/
theorem c7_blinker_period_two :
    Board.blinker = some ⟨⟨5, 5⟩,
      [false, false, false, false, false,
       false, false, true, false, false,
       false, false, true, false, false,
       false, false, true, false, false,
       false, false, false, false, false]⟩ ∧
    (⟨⟨5, 5⟩,
      [false, false, false, false, false,
       false, false, true, false, false,
       false, false, true, false, false,
       false, false, true, false, false,
       false, false, false, false, false]⟩ : Board).next = some ⟨⟨5, 5⟩,
      [false, false, false, false, false,
       false, false, false, false, false,
       false, true, true, true, false,
       false, false, false, false, false,
       false, false, false, false, false]⟩ ∧
    (⟨⟨5, 5⟩,
      [false, false, false, false, false,
       false, false, false, false, false,
       false, true, true, true, false,
       false, false, false, false, false,
       false, false, false, false, false]⟩ : Board).next = some ⟨⟨5, 5⟩,
      [false, false, false, false, false,
       false, false, true, false, false,
       false, false, true, false, false,
       false, false, true, false, false,
       false, false, false, false, false]⟩ := by
  refine ⟨by decide, by decide, by decide⟩

/-- C4: the recoverable error paths exist (`InvalidCharacter` for a stray
glyph, `RaggedRows` for unequal rows), but parsing an empty or
all-whitespace string panics (`none` in the model): after trimming there
is no token and `row_lens[0]` indexes an empty vector, so the claim that
parsing never panics for any input is contradicted by the code. -/
theorem c4_parse_empty_input_panics :
    Board.tryFrom [] = none ∧
    Board.tryFrom (' ' :: '\n' :: ' ' :: []) = none ∧
    Board.tryFrom ('x' :: 'y' :: 'z' :: []) = some (.error .invalidCharacter) ∧
    Board.tryFrom ('x' :: 'x' :: ' ' :: 'x' :: []) = some (.error .raggedRows) := by
  refine ⟨by decide, by decide, by decide, by decide⟩

/-- C5 counterexample: parsing the two-row text with rows `x` then `-`
(text-row 0 is the alive row).  The claim says text-row 0 is stored at the
highest y, so the cell at (0, h-1-0) = (0,1) should be alive; instead the
parsed board has (0,0) alive and (0,1) dead: text-row 0 is stored at
y = 0, not at the highest y. -/
theorem c5_counterexample :
    Board.tryFrom ('x' :: '\n' :: '-' :: []) = some (.ok ⟨⟨1, 2⟩, [true, false]⟩) ∧
    (⟨⟨1, 2⟩, [true, false]⟩ : Board).alive ⟨0, 1⟩ = false ∧
    (⟨⟨1, 2⟩, [true, false]⟩ : Board).alive ⟨0, 0⟩ = true := by
  refine ⟨by decide, by decide, by decide⟩

/-! ### Recovering the grid from parsed tokens -/

theorem charToCell_ws (c : Char) (h : isWs c = true) : charToCell c = none := by
  unfold charToCell
  rw [if_neg, if_neg]
  · intro hc
    subst hc
    exact absurd h (by decide)
  · intro hc
    subst hc
    exact absurd h (by decide)

theorem filterMap_charToCell_filter (l : List Char) :
    l.filterMap charToCell = (l.filter (fun c => !isWs c)).filterMap charToCell := by
  induction l with
  | nil => rfl
  | cons c rest ih =>
    rw [List.filterMap_cons, List.filter_cons]
    by_cases hc : isWs c
    · rw [charToCell_ws c hc, if_neg (by simp [hc])]
      exact ih
    · rw [if_pos (by simp [hc]), List.filterMap_cons]
      cases charToCell c <;> rw [ih]

theorem filterMap_flatten (ls : List (List Char)) (f : Char → Option Bool) :
    ls.flatten.filterMap f = ls.flatMap (fun t => t.filterMap f) := by
  induction ls with
  | nil => rfl
  | cons t ts ih => rw [List.flatten_cons, List.filterMap_append, List.flatMap_cons, ih]

theorem filterMap_charToCell_eq_map (t : List Char)
    (h : ∀ c ∈ t, c = ALIVE_CHAR ∨ c = DEAD_CHAR) :
    t.filterMap charToCell = t.map (fun c => c == ALIVE_CHAR) := by
  induction t with
  | nil => rfl
  | cons c rest ih =>
    rw [List.filterMap_cons, List.map_cons]
    rcases h c (by simp) with hc | hc <;> subst hc
    · rw [show charToCell ALIVE_CHAR = some true by decide]
      rw [ih (fun c hc => h c (by simp [hc]))]
      rfl
    · rw [show charToCell DEAD_CHAR = some false by decide]
      rw [ih (fun c hc => h c (by simp [hc]))]
      rfl

theorem getD_map_beq (t : List Char) (j : Nat) (hj : j < t.length) :
    (t.map (fun c => c == ALIVE_CHAR)).getD j false = (t.getD j DEAD_CHAR == ALIVE_CHAR) := by
  rw [List.getD_eq_getElem?_getD, List.getD_eq_getElem?_getD, List.getElem?_map,
    List.getElem?_eq_getElem hj]
  rfl

theorem flatMap_grid_getD (W : Nat) : ∀ (ls : List (List Bool)) (i j : Nat),
    (∀ l ∈ ls, l.length = W) → i < ls.length → j < W →
    (ls.flatMap id).getD (i * W + j) false = (ls.getD i []).getD j false := by
  intro ls
  induction ls with
  | nil =>
    intro i j _ hi _
    simp at hi
  | cons l ls ih =>
    intro i j hW hi hj
    cases i with
    | zero =>
      rw [List.flatMap_cons]
      simp only [Nat.zero_mul, Nat.zero_add, id]
      rw [List.getD_eq_getElem?_getD, List.getElem?_append,
        if_pos (by rw [hW l (by simp)]; exact hj), ← List.getD_eq_getElem?_getD]
      rfl
    | succ i =>
      rw [List.flatMap_cons]
      simp only [id]
      rw [List.getD_eq_getElem?_getD, List.getElem?_append,
        if_neg (by rw [hW l (by simp), Nat.succ_mul]; omega)]
      rw [hW l (by simp)]
      have hidx : Nat.succ i * W + j - W = i * W + j := by rw [Nat.succ_mul]; omega
      rw [hidx, ← List.getD_eq_getElem?_getD]
      exact ih i j (fun x hx => hW x (by simp [hx])) (by simpa using hi) hj

/-- C5 (amended): when a Board is parsed from text, text-row i (the i-th
whitespace-delimited token, top to bottom) is stored at logical row y = i:
the parsed board has one logical row per token, width the first token's
length, and the cell at (j, i) is alive exactly when character j of token
i is the alive glyph.  In particular text-row 0 is stored at y = 0, and
the row closest to the string's last line is y = h-1, not y = 0. -/
theorem c5_text_row_maps_to_same_y (s : List Char) (b : Board)
    (h : Board.tryFrom s = some (.ok b)) :
    b.dims.y = (splitWs (trimList s)).length ∧
    b.dims.x = ((splitWs (trimList s)).getD 0 []).length ∧
    ∀ i j, i < b.dims.y → j < b.dims.x →
      b.alive ⟨j, i⟩
        = (((splitWs (trimList s)).getD i []).getD j DEAD_CHAR == ALIVE_CHAR) := by
  simp only [Board.tryFrom] at h
  by_cases hall : (trimList s).all
      (fun c => isWs c || c == ALIVE_CHAR || c == DEAD_CHAR) = true
  case neg =>
    rw [if_neg hall] at h
    simp at h
  rw [if_pos hall] at h
  by_cases hrag : (((splitWs (trimList s)).map List.length).drop 1).any
      (fun len => len != ((splitWs (trimList s)).map List.length).getD 0 0) = true
  case pos =>
    rw [if_pos hrag] at h
    simp at h
  rw [if_neg hrag] at h
  cases hhd : ((splitWs (trimList s)).map List.length).head? with
  | none =>
    rw [hhd] at h
    simp at h
  | some len0 =>
  rw [hhd] at h
  simp only [Option.some.injEq] at h
  rw [List.length_map] at h
  by_cases hpos : 0 < len0 * (splitWs (trimList s)).length
  case neg =>
    simp only [Board.new] at h
    rw [if_neg hpos] at h
    exact Except.noConfusion h
  by_cases hclen : ((trimList s).filterMap charToCell).length
      = len0 * (splitWs (trimList s)).length
  case neg =>
    simp only [Board.new] at h
    rw [if_pos hpos, if_neg hclen] at h
    exact Except.noConfusion h
  simp only [Board.new] at h
  rw [if_pos hpos, if_pos hclen] at h
  have hb := Except.ok.inj h
  subst hb
  obtain ⟨t0, ts, hts⟩ : ∃ t0 ts, splitWs (trimList s) = t0 :: ts := by
    cases hts : splitWs (trimList s) with
    | nil => rw [hts] at hhd; cases hhd
    | cons t0 ts => exact ⟨t0, ts, rfl⟩
  have hlen0 : len0 = t0.length := by
    rw [hts] at hhd
    simp at hhd
    omega
  have htok_chars : ∀ t' ∈ splitWs (trimList s), ∀ c ∈ t',
      c = ALIVE_CHAR ∨ c = DEAD_CHAR := by
    intro t' ht' c hc
    have hflat : c ∈ (splitWs (trimList s)).flatten := List.mem_flatten.mpr ⟨t', ht', hc⟩
    rw [splitWs_flatten] at hflat
    rcases List.mem_filter.mp hflat with ⟨hmem, hnws⟩
    have := List.all_eq_true.mp hall c hmem
    simp at this hnws
    rcases this with (hw | hx) | hd
    · rw [hw] at hnws
      cases hnws
    · exact Or.inl hx
    · exact Or.inr hd
  have htok_len : ∀ t' ∈ splitWs (trimList s), t'.length = len0 := by
    have hragf : (((splitWs (trimList s)).map List.length).drop 1).any
        (fun len => len != ((splitWs (trimList s)).map List.length).getD 0 0) = false := by
      cases hb : (((splitWs (trimList s)).map List.length).drop 1).any
          (fun len => len != ((splitWs (trimList s)).map List.length).getD 0 0)
      · rfl
      · exact absurd hb hrag
    intro t' ht'
    rw [hts] at ht' hragf
    have hgd : ((t0 :: ts).map List.length).getD 0 0 = t0.length := rfl
    rcases List.mem_cons.mp ht' with rfl | ht'
    · omega
    · have hmem : t'.length ∈ ((t0 :: ts).map List.length).drop 1 := by
        simp only [List.map_cons, List.drop_succ_cons, List.drop_zero]
        exact List.mem_map.mpr ⟨t', ht', rfl⟩
      have := List.any_eq_false.mp hragf t'.length hmem
      rw [hgd] at this
      simp at this
      omega
  have hcells : (trimList s).filterMap charToCell
      = ((splitWs (trimList s)).map (fun t' => t'.filterMap charToCell)).flatMap id := by
    rw [filterMap_charToCell_filter, ← splitWs_flatten, filterMap_flatten, List.flatMap_map]
    rfl
  refine ⟨by simp, ?_, ?_⟩
  · rw [hts]
    simp only [List.getD_cons_zero]
    exact hlen0
  · intro i j hi hj
    simp only [List.length_map] at hi
    show ((trimList s).filterMap charToCell).getD (i * len0 + j) false = _
    rw [hcells]
    rw [flatMap_grid_getD len0 _ i j ?hW (by simpa using hi) hj]
    · have hrow : ((splitWs (trimList s)).map
          (fun t' => t'.filterMap charToCell)).getD i []
          = ((splitWs (trimList s)).getD i []).filterMap charToCell := by
        rw [List.getD_eq_getElem?_getD, List.getD_eq_getElem?_getD, List.getElem?_map,
          List.getElem?_eq_getElem (by simpa using hi)]
        simp
      rw [hrow]
      have hmem : (splitWs (trimList s)).getD i [] ∈ splitWs (trimList s) := by
        rw [List.getD_eq_getElem?_getD, List.getElem?_eq_getElem (by simpa using hi)]
        exact List.getElem_mem _
      rw [filterMap_charToCell_eq_map _ (htok_chars _ hmem)]
      exact getD_map_beq _ j (by rw [htok_len _ hmem]; exact hj)
    · intro l hl
      rcases List.mem_map.mp hl with ⟨t', ht', hmap⟩
      rw [← hmap, filterMap_charToCell_eq_map _ (htok_chars _ ht'), List.length_map]
      exact htok_len _ ht'

/-- Witness for the amended C5 at a concrete input: the two-row text with
rows `x` then `-`. -/
theorem c5_witness :
    Board.tryFrom ('x' :: '\n' :: '-' :: []) = some (.ok ⟨⟨1, 2⟩, [true, false]⟩) ∧
    ((⟨⟨1, 2⟩, [true, false]⟩ : Board).dims.y
        = (splitWs (trimList ('x' :: '\n' :: '-' :: []))).length ∧
      (⟨⟨1, 2⟩, [true, false]⟩ : Board).dims.x
        = ((splitWs (trimList ('x' :: '\n' :: '-' :: []))).getD 0 []).length ∧
      ∀ i j, i < (⟨⟨1, 2⟩, [true, false]⟩ : Board).dims.y →
        j < (⟨⟨1, 2⟩, [true, false]⟩ : Board).dims.x →
        (⟨⟨1, 2⟩, [true, false]⟩ : Board).alive ⟨j, i⟩
          = (((splitWs (trimList ('x' :: '\n' :: '-' :: []))).getD i []).getD j DEAD_CHAR
              == ALIVE_CHAR)) :=
  ⟨by decide, c5_text_row_maps_to_same_y ('x' :: '\n' :: '-' :: [])
    ⟨⟨1, 2⟩, [true, false]⟩ (by decide)⟩

end ConwayLife
